import Mathlib

/-!
Verification development for the succession-diagram / attractor analysis
library (nfvs-motifs / balm / biobalm).

The development shallowly embeds the data model of the repository
(Boolean networks, spaces, trap spaces, percolation, the asynchronous
state-transition graph, symbolic reachability and the attractor
candidate pruning pipeline) and proves or refutes the frozen claims
about the specification.
-/

set_option maxRecDepth 4000
set_option linter.unusedVariables false
set_option linter.unnecessarySimpa false

namespace Balm

/-- A state of a Boolean network over `n` variables (part_005: a vector
`x ∈ 𝔹^n`). -/
abbrev State (n : Nat) := Fin n → Bool

/-- A space (partial assignment / sub-hypercube, part_005: a vector in
`𝔹_⋆^n`): `none` means the variable is free (`⋆`), `some b` means it is
fixed to `b`. -/
abbrev Space (n : Nat) := Fin n → Option Bool

/-- A Boolean network over `n` variables: the update functions
`f_i : 𝔹^n → 𝔹` bundled as one function (part_005). -/
abbrev BNet (n : Nat) := State n → Fin n → Bool

/-- State `x` belongs to space `S`: `x_i = S_i` for every fixed `i`
(part_005, membership `x ∈ S`). -/
def inSpace {n : Nat} (x : State n) (S : Space n) : Prop :=
  ∀ i : Fin n, ∀ b : Bool, S i = some b → x i = b

instance {n : Nat} (x : State n) (S : Space n) : Decidable (inSpace x S) := by
  unfold inSpace; infer_instance

/-- One asynchronous transition of the network (part_005:
`x → y ⇔ x ≠ y ∧ ∃ i. y = x[i ← f_i(x)]`). -/
def asyncStep {n : Nat} (F : BNet n) (x y : State n) : Prop :=
  x ≠ y ∧ ∃ i : Fin n, y = Function.update x i (F x i)

instance {n : Nat} (F : BNet n) (x y : State n) : Decidable (asyncStep F x y) := by
  unfold asyncStep; infer_instance

/-- `S` is a trap space: no asynchronous transition leaves `S`
(part_005; spec §3). Since every asynchronous transition updates a
single variable with its update function, this is equivalent to: for
every `x ∈ S` and every variable `i`, the single-variable update of `x`
stays in `S`. -/
def IsTrapSpace {n : Nat} (F : BNet n) (S : Space n) : Prop :=
  ∀ x : State n, inSpace x S → ∀ i : Fin n,
    inSpace (Function.update x i (F x i)) S

instance {n : Nat} (F : BNet n) (S : Space n) : Decidable (IsTrapSpace F S) := by
  unfold IsTrapSpace; infer_instance

/-- The sub-space order on spaces: `T ⊑ S` iff every variable fixed in
`S` is fixed to the same value in `T` (spec §3: smaller = more fixed). -/
def SpaceSub {n : Nat} (T S : Space n) : Prop :=
  ∀ i : Fin n, ∀ b : Bool, S i = some b → T i = some b

instance {n : Nat} (T S : Space n) : Decidable (SpaceSub T S) := by
  unfold SpaceSub; infer_instance

/-- Modelled from the spec: one pass of value propagation. The body of
`propagate` in part_004 is a stub, so this follows spec §3 and §4.A:
any free variable `i` whose update function is constant `b` on the
completions of `S` gets fixed to `b`; fixed variables are kept. -/
def percStep {n : Nat} (F : BNet n) (S : Space n) : Space n := fun i =>
  match S i with
  | some b => some b
  | none =>
    if ∀ x : State n, inSpace x S → F x i = true then some true
    else if ∀ x : State n, inSpace x S → F x i = false then some false
    else none

/-- Fueled iteration of `percStep` until a fixed point is reached. -/
def percIter {n : Nat} (F : BNet n) : Nat → Space n → Space n
  | 0, S => S
  | fuel + 1, S =>
    let T := percStep F S
    if T = S then S else percIter F fuel T

/-- Modelled from the spec: percolation `perc_F(S)` (spec §3, §4.A;
`propagate` in part_004 is a stub). `n` rounds of `percStep` suffice
because every productive round fixes at least one additional variable. -/
def percolate {n : Nat} (F : BNet n) (S : Space n) : Space n :=
  percIter F n S

/-- Number of fixed variables of a space. -/
def fixedCount {n : Nat} (S : Space n) : Nat :=
  (Finset.univ.filter (fun i : Fin n => (S i).isSome)).card

theorem percStep_keeps_fixed {n : Nat} (F : BNet n) (S : Space n)
    (i : Fin n) (b : Bool) (h : S i = some b) : percStep F S i = some b := by
  unfold percStep
  rw [h]

theorem percStep_isSome {n : Nat} (F : BNet n) (S : Space n)
    (i : Fin n) (h : (S i).isSome) : (percStep F S i).isSome := by
  rcases Option.isSome_iff_exists.mp h with ⟨b, hb⟩
  rw [percStep_keeps_fixed F S i b hb]
  rfl

theorem fixedCount_le {n : Nat} (S : Space n) : fixedCount S ≤ n := by
  have h := Finset.card_filter_le (Finset.univ : Finset (Fin n))
    (fun i => (S i).isSome)
  simpa [fixedCount] using h

theorem fixedCount_lt_of_ne {n : Nat} (F : BNet n) (S : Space n)
    (h : percStep F S ≠ S) : fixedCount S < fixedCount (percStep F S) := by
  apply Finset.card_lt_card
  constructor
  · intro i hi
    simp only [Finset.mem_filter, Finset.mem_univ, true_and] at hi ⊢
    exact percStep_isSome F S i hi
  · intro hsub
    apply h
    funext i
    cases hS : S i with
    | some b => exact percStep_keeps_fixed F S i b hS
    | none =>
      cases hP : percStep F S i with
      | none => rfl
      | some c =>
        exfalso
        have hmem : i ∈ Finset.univ.filter (fun j : Fin n => (percStep F S j).isSome) := by
          simp only [Finset.mem_filter, Finset.mem_univ, true_and, hP]
          rfl
        have hmem2 := hsub hmem
        simp only [Finset.mem_filter, Finset.mem_univ, true_and, hS] at hmem2
        simp at hmem2

theorem percIter_of_fix {n : Nat} (F : BNet n) (S : Space n)
    (h : percStep F S = S) : ∀ fuel, percIter F fuel S = S := by
  intro fuel
  cases fuel with
  | zero => rfl
  | succ k => simp [percIter, h]

theorem percStep_of_all_fixed {n : Nat} (F : BNet n) (S : Space n)
    (h : n ≤ fixedCount S) : percStep F S = S := by
  have hcard : fixedCount S = n := le_antisymm (fixedCount_le S) h
  have huniv := Finset.eq_univ_of_card
    (Finset.univ.filter (fun i : Fin n => (S i).isSome))
    (by simpa [fixedCount, Fintype.card_fin] using hcard)
  funext i
  have hi : (S i).isSome := by
    have : i ∈ Finset.univ.filter (fun j : Fin n => (S j).isSome) := by
      rw [huniv]; exact Finset.mem_univ i
    simpa using this
  rcases Option.isSome_iff_exists.mp hi with ⟨b, hb⟩
  rw [percStep_keeps_fixed F S i b hb, hb]

theorem percIter_reaches_fix {n : Nat} (F : BNet n) :
    ∀ fuel (S : Space n), n ≤ fixedCount S + fuel →
      percStep F (percIter F fuel S) = percIter F fuel S := by
  intro fuel
  induction fuel with
  | zero =>
    intro S h
    simpa [percIter] using percStep_of_all_fixed F S (by omega)
  | succ k ih =>
    intro S h
    by_cases hfix : percStep F S = S
    · simp [percIter, hfix]
    · have hlt := fixedCount_lt_of_ne F S hfix
      have := ih (percStep F S) (by omega)
      simpa [percIter, hfix] using this

theorem percolate_fix {n : Nat} (F : BNet n) (S : Space n) :
    percStep F (percolate F S) = percolate F S :=
  percIter_reaches_fix F n S (by omega)

/-- Space membership is antitone along `percStep`: the stepped space
only adds fixings, so its states are states of the original space. -/
theorem inSpace_of_percStep {n : Nat} (F : BNet n) (S : Space n)
    (x : State n) (h : inSpace x (percStep F S)) : inSpace x S := by
  intro i b hb
  exact h i b (percStep_keeps_fixed F S i b hb)

/-- If a variable is newly fixed by `percStep`, its update function is
constant on the original space. -/
theorem percStep_const {n : Nat} (F : BNet n) (S : Space n) (j : Fin n)
    (b : Bool) (hj : S j = none) (hP : percStep F S j = some b) :
    ∀ x : State n, inSpace x S → F x j = b := by
  intro x hx
  unfold percStep at hP
  rw [hj] at hP
  by_cases h1 : ∀ y : State n, inSpace y S → F y j = true
  · rw [if_pos h1] at hP
    have hb : b = true := by simpa using hP.symm
    rw [hb]; exact h1 x hx
  · rw [if_neg h1] at hP
    by_cases h2 : ∀ y : State n, inSpace y S → F y j = false
    · rw [if_pos h2] at hP
      have hb : b = false := by simpa using hP.symm
      rw [hb]; exact h2 x hx
    · rw [if_neg h2] at hP
      exact absurd hP (by simp)

theorem IsTrapSpace.percStep {n : Nat} {F : BNet n} {S : Space n}
    (h : IsTrapSpace F S) : IsTrapSpace F (Balm.percStep F S) := by
  intro x hx i j b hjb
  have hxS : inSpace x S := inSpace_of_percStep F S x hx
  have hyS : inSpace (Function.update x i (F x i)) S := h x hxS i
  cases hSj : S j with
  | some c =>
    have : Balm.percStep F S j = some c := percStep_keeps_fixed F S j c hSj
    have hbc : b = c := by rw [this] at hjb; simpa using hjb.symm
    rw [hbc]
    exact hyS j c hSj
  | none =>
    have hconst := percStep_const F S j b hSj hjb
    by_cases hji : j = i
    · subst hji
      rw [Function.update_same]
      exact hconst x hxS
    · rw [Function.update_noteq hji]
      exact hx j b hjb

theorem IsTrapSpace.percIter {n : Nat} {F : BNet n} {S : Space n}
    (h : IsTrapSpace F S) : ∀ fuel, IsTrapSpace F (Balm.percIter F fuel S) := by
  intro fuel
  induction fuel generalizing S with
  | zero => exact h
  | succ k ih =>
    by_cases hfix : Balm.percStep F S = S
    · simpa [Balm.percIter, hfix] using h
    · simpa [Balm.percIter, hfix] using ih h.percStep

theorem IsTrapSpace.percolate {n : Nat} {F : BNet n} {S : Space n}
    (h : IsTrapSpace F S) : IsTrapSpace F (Balm.percolate F S) :=
  h.percIter n

/-- Claim C2: percolation is idempotent — `perc_F(perc_F(S)) = perc_F(S)`
for every Boolean network `F` and every space `S` (spec P1). -/
theorem claim_C2_percolation_idempotent {n : Nat} (F : BNet n) (S : Space n) :
    percolate F (percolate F S) = percolate F S :=
  percIter_of_fix F (percolate F S) (percolate_fix F S) n

/-- Network refuting the "only if" half of claim C7:
`f_0 = x_1`, `f_1 = false`. -/
def F7 : BNet 2 := fun x i => if i = 0 then x 1 else false

/-- Space `{x_0 = 0, x_1 = ⋆}`, not a trap space of `F7`, whose
percolation `{x_0 = 0, x_1 = 0}` is a trap space. -/
def S7 : Space 2 := fun i => if i = 0 then some false else none

/-- Claim C7 counterexample: for `F7` and `S7`, the percolation result is
a trap space although the input space is not, so "result is a trap space
iff the input was" fails. -/
theorem claim_C7_counterexample :
    ¬ (IsTrapSpace F7 (percolate F7 S7) ↔ IsTrapSpace F7 S7) := by
  decide

/-- Claim C7 (amended): percolation terminates (the iteration reaches a
fixed point of the percolation step), and if the input space is a trap
space then so is the result. The converse implication fails
(`claim_C7_counterexample`). -/
theorem claim_C7_amended {n : Nat} (F : BNet n) (S : Space n) :
    percStep F (percolate F S) = percolate F S ∧
      (IsTrapSpace F S → IsTrapSpace F (percolate F S)) :=
  ⟨percolate_fix F S, fun h => h.percolate⟩

section Graph

variable {α : Type} [DecidableEq α] [Fintype α]

/-- One round of saturation: add all one-step successors of `X`
(spec §4.A, symbolic step + reachability by saturation). -/
def stepOnce (R : α → α → Bool) (X : Finset α) : Finset α :=
  X ∪ Finset.univ.filter (fun y => ∃ x ∈ X, R x y = true)

/-- Fueled saturation of `stepOnce`. -/
def satIter (R : α → α → Bool) : Nat → Finset α → Finset α
  | 0, X => X
  | k + 1, X => satIter R k (stepOnce R X)

/-- `symbolic_forward_reachability` of part_004: all states reachable
from `x`, computed by saturation; `Fintype.card α` rounds always reach
the fixed point. -/
def fwdSet (R : α → α → Bool) (x : α) : Finset α :=
  satIter R (Fintype.card α) {x}

/-- The transposed edge relation. -/
def flipR (R : α → α → Bool) : α → α → Bool := fun a b => R b a

/-- `symbolic_backward_reachability` of part_004: all states that can
reach `x`. -/
def bwdSet (R : α → α → Bool) (x : α) : Finset α := fwdSet (flipR R) x

/-- Reachability as the reflexive-transitive closure of the edge
relation. -/
def Reaches (R : α → α → Bool) : α → α → Prop :=
  Relation.ReflTransGen (fun a b => R a b = true)

theorem subset_stepOnce (R : α → α → Bool) (X : Finset α) :
    X ⊆ stepOnce R X :=
  Finset.subset_union_left

theorem mem_stepOnce_of_edge (R : α → α → Bool) {X : Finset α} {y z : α}
    (hy : y ∈ X) (h : R y z = true) : z ∈ stepOnce R X := by
  apply Finset.mem_union_right
  simp only [Finset.mem_filter, Finset.mem_univ, true_and]
  exact ⟨y, hy, h⟩

theorem satIter_of_fix (R : α → α → Bool) {X : Finset α}
    (h : stepOnce R X = X) : ∀ k, satIter R k X = X := by
  intro k
  induction k with
  | zero => rfl
  | succ m ih => simp [satIter, h, ih]

theorem subset_satIter (R : α → α → Bool) :
    ∀ k (X : Finset α), X ⊆ satIter R k X := by
  intro k
  induction k with
  | zero => intro X; exact Finset.Subset.refl X
  | succ m ih =>
    intro X
    exact Finset.Subset.trans (subset_stepOnce R X) (ih (stepOnce R X))

theorem card_lt_of_stepOnce_ne (R : α → α → Bool) {X : Finset α}
    (h : stepOnce R X ≠ X) : X.card < (stepOnce R X).card :=
  Finset.card_lt_card ⟨subset_stepOnce R X,
    fun hsub => h (Finset.Subset.antisymm hsub (subset_stepOnce R X))⟩

theorem satIter_reaches_fix (R : α → α → Bool) :
    ∀ k (X : Finset α), Fintype.card α ≤ X.card + k →
      stepOnce R (satIter R k X) = satIter R k X := by
  intro k
  induction k with
  | zero =>
    intro X h
    have huniv : X = Finset.univ :=
      Finset.eq_univ_of_card X
        (le_antisymm (Finset.card_le_univ X) (by simpa using h))
    subst huniv
    exact Finset.Subset.antisymm (Finset.subset_univ _)
      (subset_stepOnce R Finset.univ)
  | succ m ih =>
    intro X h
    by_cases hfix : stepOnce R X = X
    · rw [show satIter R (m + 1) X = X from by
        simp [satIter, hfix, satIter_of_fix R hfix]]
      exact hfix
    · have hlt := card_lt_of_stepOnce_ne R hfix
      have := ih (stepOnce R X) (by omega)
      simpa [satIter] using this

theorem fwdSet_fix (R : α → α → Bool) (x : α) :
    stepOnce R (fwdSet R x) = fwdSet R x :=
  satIter_reaches_fix R (Fintype.card α) {x} (by simp)

theorem self_mem_fwdSet (R : α → α → Bool) (x : α) : x ∈ fwdSet R x :=
  subset_satIter R (Fintype.card α) {x} (Finset.mem_singleton_self x)

theorem mem_fwdSet_of_edge (R : α → α → Bool) {x y z : α}
    (hy : y ∈ fwdSet R x) (h : R y z = true) : z ∈ fwdSet R x := by
  rw [← fwdSet_fix R x]
  exact mem_stepOnce_of_edge R hy h

theorem mem_satIter_sound (R : α → α → Bool) :
    ∀ k (X : Finset α) (y : α), y ∈ satIter R k X →
      ∃ x ∈ X, Reaches R x y := by
  intro k
  induction k with
  | zero => intro X y hy; exact ⟨y, hy, Relation.ReflTransGen.refl⟩
  | succ m ih =>
    intro X y hy
    obtain ⟨w, hw, hwy⟩ := ih (stepOnce R X) y (by simpa [satIter] using hy)
    rcases Finset.mem_union.mp hw with hwX | hwE
    · exact ⟨w, hwX, hwy⟩
    · simp only [Finset.mem_filter, Finset.mem_univ, true_and] at hwE
      obtain ⟨x, hxX, hxw⟩ := hwE
      exact ⟨x, hxX, Relation.ReflTransGen.head hxw hwy⟩

theorem mem_fwdSet_iff (R : α → α → Bool) (x y : α) :
    y ∈ fwdSet R x ↔ Reaches R x y := by
  constructor
  · intro hy
    obtain ⟨w, hw, hwy⟩ := mem_satIter_sound R (Fintype.card α) {x} y hy
    rwa [Finset.mem_singleton.mp hw] at hwy
  · intro hreach
    induction hreach with
    | refl => exact self_mem_fwdSet R x
    | tail _ hedge ih => exact mem_fwdSet_of_edge R ih hedge

theorem mem_bwdSet_iff (R : α → α → Bool) (x y : α) :
    y ∈ bwdSet R x ↔ Reaches R y x := by
  rw [bwdSet, mem_fwdSet_iff]
  exact Relation.reflTransGen_swap

theorem fwdSet_trans (R : α → α → Bool) {x y z : α}
    (hy : y ∈ fwdSet R x) (hz : z ∈ fwdSet R y) : z ∈ fwdSet R x := by
  rw [mem_fwdSet_iff] at hy hz ⊢
  exact Relation.ReflTransGen.trans hy hz

/-- An attractor: a terminal strongly connected component, i.e. a
nonempty set of states such that the forward-reachable set of each
member is exactly the set itself (part_005: bottom SCC of the STG). -/
def isAttractor (R : α → α → Bool) (A : Finset α) : Prop :=
  A.Nonempty ∧ ∀ x ∈ A, fwdSet R x = A

instance (R : α → α → Bool) (A : Finset α) : Decidable (isAttractor R A) := by
  unfold isAttractor; infer_instance

/-- A pivot whose forward set is contained in its backward set spans an
attractor. -/
theorem isAttractor_fwdSet (R : α → α → Bool) {p : α}
    (h : fwdSet R p ⊆ bwdSet R p) : isAttractor R (fwdSet R p) := by
  refine ⟨⟨p, self_mem_fwdSet R p⟩, fun x hx => ?_⟩
  apply Finset.Subset.antisymm
  · intro z hz
    exact fwdSet_trans R hx hz
  · intro z hz
    have hxp : Reaches R x p := (mem_bwdSet_iff R p x).mp (h hx)
    have hpx : p ∈ fwdSet R x := (mem_fwdSet_iff R x p).mpr hxp
    exact fwdSet_trans R hpx hz

/-- The member of an attractor has its forward set inside its backward
set. -/
theorem attractor_fwd_subset_bwd (R : α → α → Bool) {A : Finset α} {x : α}
    (hA : isAttractor R A) (hx : x ∈ A) : fwdSet R x ⊆ bwdSet R x := by
  intro a ha
  have hfa : fwdSet R x = A := hA.2 x hx
  have haA : a ∈ A := by rwa [hfa] at ha
  have hfx : fwdSet R a = A := hA.2 a haA
  have hxa : x ∈ fwdSet R a := by rw [hfx]; exact hx
  exact (mem_bwdSet_iff R x a).mpr ((mem_fwdSet_iff R a x).mp hxa)

/-- A state seeds an attractor exactly when `fwd(x) \ bwd(x)` is empty
(spec §4.F, Phase 2). -/
theorem mem_attractor_iff (R : α → α → Bool) (x : α) :
    (∃ A, isAttractor R A ∧ x ∈ A) ↔ fwdSet R x \ bwdSet R x = ∅ := by
  rw [Finset.sdiff_eq_empty_iff_subset]
  constructor
  · rintro ⟨A, hA, hx⟩
    exact attractor_fwd_subset_bwd R hA hx
  · intro h
    exact ⟨fwdSet R x, isAttractor_fwdSet R h, self_mem_fwdSet R x⟩

/-- The pivot loop of `attractors` in part_004 (step 5d/3a), with fuel:
pick a pivot, compute its backward set, remove the backward set from the
candidates, and keep the pivot as a seed exactly when
`fwd(pivot) \ bwd(pivot)` is empty. -/
def pivotLoopF (R : α → α → Bool) : Nat → List α → List α
  | 0, _ => []
  | _ + 1, [] => []
  | fuel + 1, p :: rest =>
    let rest2 := rest.filter (fun y => decide (y ∉ bwdSet R p))
    if fwdSet R p \ bwdSet R p = ∅ then p :: pivotLoopF R fuel rest2
    else pivotLoopF R fuel rest2

/-- The pivot loop run to completion (the candidate list shrinks in
every round, so `candidates.length` rounds suffice). -/
def pivotLoop (R : α → α → Bool) (candidates : List α) : List α :=
  pivotLoopF R candidates.length candidates

theorem pivotLoopF_subset (R : α → α → Bool) :
    ∀ fuel (l : List α) (q : α), q ∈ pivotLoopF R fuel l → q ∈ l := by
  intro fuel
  induction fuel with
  | zero => intro l q hq; simp [pivotLoopF] at hq
  | succ m ih =>
    intro l q hq
    cases l with
    | nil => simpa [pivotLoopF] using hq
    | cons p rest =>
      simp only [pivotLoopF] at hq
      by_cases hcond : fwdSet R p \ bwdSet R p = ∅
      · rw [if_pos hcond] at hq
        rcases List.mem_cons.mp hq with hqp | hqrec
        · exact hqp ▸ List.mem_cons_self p rest
        · exact List.mem_cons_of_mem p (List.mem_of_mem_filter (ih _ q hqrec))
      · rw [if_neg hcond] at hq
        exact List.mem_cons_of_mem p (List.mem_of_mem_filter (ih _ q hq))

theorem pivotLoop_subset (R : α → α → Bool) (l : List α) {q : α}
    (h : q ∈ pivotLoop R l) : q ∈ l :=
  pivotLoopF_subset R l.length l q h

theorem pivotLoopF_sound (R : α → α → Bool) :
    ∀ fuel (l : List α) (p : α), p ∈ pivotLoopF R fuel l →
      fwdSet R p \ bwdSet R p = ∅ := by
  intro fuel
  induction fuel with
  | zero => intro l p hp; simp [pivotLoopF] at hp
  | succ m ih =>
    intro l p hp
    cases l with
    | nil => simpa [pivotLoopF] using hp
    | cons q rest =>
      simp only [pivotLoopF] at hp
      by_cases hcond : fwdSet R q \ bwdSet R q = ∅
      · rw [if_pos hcond] at hp
        rcases List.mem_cons.mp hp with hpq | hprec
        · exact hpq ▸ hcond
        · exact ih _ p hprec
      · rw [if_neg hcond] at hp
        exact ih _ p hp

theorem pivotLoopF_complete (R : α → α → Bool) :
    ∀ fuel (l : List α), l.length ≤ fuel →
      ∀ A : Finset α, isAttractor R A → (∃ c ∈ l, c ∈ A) →
        ∃ p ∈ pivotLoopF R fuel l, p ∈ A := by
  intro fuel
  induction fuel with
  | zero =>
    intro l hlen A hA hc
    obtain ⟨c, hcl, _⟩ := hc
    rw [List.length_eq_zero.mp (Nat.le_zero.mp hlen)] at hcl
    simp at hcl
  | succ m ih =>
    intro l hlen A hA hc
    cases l with
    | nil => obtain ⟨c, hcl, _⟩ := hc; simp at hcl
    | cons p rest =>
      by_cases hmeet : ∃ a ∈ A, a ∈ bwdSet R p
      · obtain ⟨a, haA, haD⟩ := hmeet
        have hap : Reaches R a p := (mem_bwdSet_iff R p a).mp haD
        have hpA : p ∈ A := by
          rw [← hA.2 a haA]
          exact (mem_fwdSet_iff R a p).mpr hap
        have hcond : fwdSet R p \ bwdSet R p = ∅ :=
          (mem_attractor_iff R p).mp ⟨A, hA, hpA⟩
        refine ⟨p, ?_, hpA⟩
        simp only [pivotLoopF, if_pos hcond]
        exact List.mem_cons_self _ _
      · obtain ⟨c, hcl, hcA⟩ := hc
        have hcp : c ≠ p := by
          intro hcp
          exact hmeet ⟨c, hcA, hcp ▸ (mem_bwdSet_iff R p p).mpr
            Relation.ReflTransGen.refl⟩
        have hcrest : c ∈ rest := by
          rcases List.mem_cons.mp hcl with h | h
          · exact absurd h hcp
          · exact h
        have hcD : c ∉ bwdSet R p := fun hcD => hmeet ⟨c, hcA, hcD⟩
        have hc2 : c ∈ rest.filter (fun y => decide (y ∉ bwdSet R p)) :=
          List.mem_filter.mpr ⟨hcrest, by simpa using hcD⟩
        have hlen2 : (rest.filter (fun y => decide (y ∉ bwdSet R p))).length ≤ m := by
          have h1 := List.length_filter_le (fun y => decide (y ∉ bwdSet R p)) rest
          have h2 : rest.length + 1 ≤ m + 1 := by simpa using hlen
          omega
        obtain ⟨q, hqrec, hqA⟩ := ih _ hlen2 A hA ⟨c, hc2, hcA⟩
        refine ⟨q, ?_, hqA⟩
        simp only [pivotLoopF]
        by_cases hcond : fwdSet R p \ bwdSet R p = ∅
        · rw [if_pos hcond]; exact List.mem_cons_of_mem p hqrec
        · rw [if_neg hcond]; exact hqrec

/-- After a pivot `p` is processed, no other state of `bwd(p)` is ever
returned as a seed. -/
theorem pivotLoop_no_bwd (R : α → α → Bool) (p : α) (rest : List α)
    {q : α} (hq : q ∈ pivotLoop R (p :: rest)) (hbwd : q ∈ bwdSet R p) :
    q = p := by
  unfold pivotLoop at hq
  simp only [List.length_cons, pivotLoopF] at hq
  by_cases hcond : fwdSet R p \ bwdSet R p = ∅
  · rw [if_pos hcond] at hq
    rcases List.mem_cons.mp hq with h | h
    · exact h
    · have h2 := pivotLoopF_subset R _ _ q h
      have h3 := (List.mem_filter.mp h2).2
      simp at h3
      exact absurd hbwd h3
  · rw [if_neg hcond] at hq
    have h2 := pivotLoopF_subset R _ _ q hq
    have h3 := (List.mem_filter.mp h2).2
    simp at h3
    exact absurd hbwd h3

end Graph

/-- The asynchronous state-transition relation of `F` restricted to the
space `S` (part_004: reachability is computed "within the given
`space`"). -/
def stgR {n : Nat} (F : BNet n) (S : Space n) (x y : State n) : Bool :=
  decide (inSpace x S) && decide (inSpace y S) && decide (asyncStep F x y)

/-- The asynchronous state-transition relation of the whole network
(part_005: `STG(F)`), unrestricted. -/
def stgFull {n : Nat} (F : BNet n) (x y : State n) : Bool :=
  decide (asyncStep F x y)

/-- An attractor of the network: a terminal SCC of the full asynchronous
state-transition graph (part_005; spec glossary). -/
def isNetworkAttractor {n : Nat} (F : BNet n) (A : Finset (State n)) : Prop :=
  isAttractor (stgFull F) A

instance {n : Nat} (F : BNet n) (A : Finset (State n)) :
    Decidable (isNetworkAttractor F A) := by
  unfold isNetworkAttractor; infer_instance

/-- `S` is the minimal trap space of the state set `A` (spec §1:
attractors are "classified by the minimal trap space containing them"):
`S` is a trap space containing `A`, and every trap space containing `A`
contains `S`. -/
def MtsOf {n : Nat} (F : BNet n) (A : Finset (State n)) (S : Space n) : Prop :=
  IsTrapSpace F S ∧ (∀ a ∈ A, inSpace a S) ∧
    ∀ T : Space n, IsTrapSpace F T → (∀ a ∈ A, inSpace a T) → SpaceSub S T

instance {n : Nat} (F : BNet n) (A : Finset (State n)) (S : Space n) :
    Decidable (MtsOf F A S) := by
  unfold MtsOf; infer_instance

/-- Edges out of an in-space state agree between the restricted and the
full transition relation when `S` is a trap space. -/
theorem stgR_eq_full_of_inSpace {n : Nat} {F : BNet n} {S : Space n}
    (hS : IsTrapSpace F S) {x : State n} (hx : inSpace x S) (y : State n) :
    stgR F S x y = stgFull F x y := by
  unfold stgR stgFull
  by_cases hstep : asyncStep F x y
  · have hstep2 := hstep
    obtain ⟨hne, i, hi⟩ := hstep2
    have hy : inSpace y S := by rw [hi]; exact hS x hx i
    simp [hstep, hx, hy]
  · simp [hstep]

/-- Restricted reachability stays inside the space. -/
theorem reaches_stgR_inSpace {n : Nat} {F : BNet n} {S : Space n}
    {x y : State n} (hx : inSpace x S) (h : Reaches (stgR F S) x y) :
    inSpace y S := by
  induction h with
  | refl => exact hx
  | tail _ hedge ih =>
    unfold stgR at hedge
    rcases Bool.and_eq_true_iff.mp hedge with ⟨h1, _⟩
    rcases Bool.and_eq_true_iff.mp h1 with ⟨_, h3⟩
    exact of_decide_eq_true h3

/-- Full reachability from an in-space state stays inside a trap
space. -/
theorem reaches_full_inSpace {n : Nat} {F : BNet n} {S : Space n}
    (hS : IsTrapSpace F S) {x y : State n} (hx : inSpace x S)
    (h : Reaches (stgFull F) x y) : inSpace y S := by
  induction h with
  | refl => exact hx
  | tail _ hedge ih =>
    obtain ⟨hne, i, hi⟩ := of_decide_eq_true hedge
    rw [hi]
    exact hS _ ih i

/-- Within a trap space, restricted and full reachability from an
in-space state coincide. -/
theorem reaches_stgR_iff_full {n : Nat} {F : BNet n} {S : Space n}
    (hS : IsTrapSpace F S) {x y : State n} (hx : inSpace x S) :
    Reaches (stgR F S) x y ↔ Reaches (stgFull F) x y := by
  constructor
  · intro h
    apply Relation.ReflTransGen.mono ?_ h
    intro a b hab
    unfold stgR at hab
    rcases Bool.and_eq_true_iff.mp hab with ⟨_, h2⟩
    exact h2
  · intro h
    induction h with
    | refl => exact Relation.ReflTransGen.refl
    | tail hr hedge ih =>
      have hb := reaches_full_inSpace hS hx hr
      exact Relation.ReflTransGen.tail ih
        (by rw [stgR_eq_full_of_inSpace hS hb]; exact hedge)

/-- Within a trap space, the restricted and the full forward sets of an
in-space state coincide. -/
theorem fwdSet_stgR_eq_full {n : Nat} {F : BNet n} {S : Space n}
    (hS : IsTrapSpace F S) {x : State n} (hx : inSpace x S) :
    fwdSet (stgR F S) x = fwdSet (stgFull F) x := by
  ext y
  rw [mem_fwdSet_iff, mem_fwdSet_iff]
  exact reaches_stgR_iff_full hS hx

/-- A set of in-space states is an attractor of the restriction iff it
is an attractor of the network, provided `S` is a trap space. -/
theorem isAttractor_stgR_iff_full {n : Nat} {F : BNet n} {S : Space n}
    (hS : IsTrapSpace F S) {A : Finset (State n)}
    (hA : ∀ a ∈ A, inSpace a S) :
    isAttractor (stgR F S) A ↔ isNetworkAttractor F A := by
  unfold isNetworkAttractor isAttractor
  constructor
  · rintro ⟨hne, hfix⟩
    refine ⟨hne, fun x hx => ?_⟩
    rw [← fwdSet_stgR_eq_full hS (hA x hx)]
    exact hfix x hx
  · rintro ⟨hne, hfix⟩
    refine ⟨hne, fun x hx => ?_⟩
    rw [fwdSet_stgR_eq_full hS (hA x hx)]
    exact hfix x hx

/-- Claim C1: at a node whose (trap) space is `S`, the candidate pruner,
given in-space candidates that cover every attractor of the network
whose minimal trap space is exactly `S` (the NFVS candidate-set property
assumed by the spec), returns seed states such that every returned seed
lies in an attractor of the network, and every attractor of the network
whose minimal trap space is exactly `S` contains a returned seed
(spec §4.F result contract; part_004 steps 3 and 5d). -/
theorem claim_C1_prune_contract {n : Nat} (F : BNet n) (S : Space n)
    (candidates : List (State n)) (hS : IsTrapSpace F S)
    (hcand : ∀ c ∈ candidates, inSpace c S)
    (hcov : ∀ A, isNetworkAttractor F A → MtsOf F A S →
      ∃ c ∈ candidates, c ∈ A) :
    (∀ p ∈ pivotLoop (stgR F S) candidates,
        ∃ A, isNetworkAttractor F A ∧ p ∈ A) ∧
      (∀ A, isNetworkAttractor F A → MtsOf F A S →
        ∃ p ∈ pivotLoop (stgR F S) candidates, p ∈ A) := by
  constructor
  · intro p hp
    have hpS : inSpace p S := hcand p (pivotLoop_subset (stgR F S) candidates hp)
    have hsdiff := pivotLoopF_sound (stgR F S) candidates.length candidates p hp
    have hattr : isAttractor (stgR F S) (fwdSet (stgR F S) p) :=
      isAttractor_fwdSet (stgR F S)
        (Finset.sdiff_eq_empty_iff_subset.mp hsdiff)
    have hfsub : ∀ a ∈ fwdSet (stgR F S) p, inSpace a S := fun a ha =>
      reaches_stgR_inSpace hpS ((mem_fwdSet_iff (stgR F S) p a).mp ha)
    exact ⟨fwdSet (stgR F S) p,
      (isAttractor_stgR_iff_full hS hfsub).mp hattr,
      self_mem_fwdSet (stgR F S) p⟩
  · intro A hA hmts
    have hAS : ∀ a ∈ A, inSpace a S := hmts.2.1
    have hAr : isAttractor (stgR F S) A :=
      (isAttractor_stgR_iff_full hS hAS).mpr hA
    exact pivotLoopF_complete (stgR F S) candidates.length candidates
      (le_refl _) A hAr (hcov A hA hmts)

/-- The negation network on one variable: a two-state oscillation. -/
def Fneg : BNet 1 := fun x _ => !(x 0)

/-- The full one-variable space. -/
def Sfull1 : Space 1 := fun _ => none

/-- The all-false one-variable state. -/
def stFF : State 1 := fun _ => false

/-- A two-variable witness network: `f_0 = ¬x_0` oscillates and
`f_1 = x_1` is a source variable. -/
def Fosc : BNet 2 := fun x i => if i = 0 then !(x 0) else x 1

/-- The proper trap space `{x_1 = 1}` of `Fosc`: the minimal trap space
of the oscillation attractor `{01, 11}`. -/
def Ssrc1 : Space 2 := fun i => if i = 1 then some true else none

/-- The state `x_0 = 0, x_1 = 1`, a candidate inside `Ssrc1`. -/
def st01 : State 2 := fun i => if i = 0 then false else true

/-- Witness for `claim_C1_prune_contract` on `Fosc` at the proper node
space `Ssrc1`, whose single attractor with minimal trap space `Ssrc1`
is covered by the candidate `st01`; the other network attractor lies in
the disjoint trap space `{x_1 = 0}` and is rightly not demanded. -/
theorem claim_C1_prune_contract_witness :
    IsTrapSpace Fosc Ssrc1 ∧ (∀ c ∈ [st01], inSpace c Ssrc1) ∧
      (∀ A, isNetworkAttractor Fosc A → MtsOf Fosc A Ssrc1 →
        ∃ c ∈ [st01], c ∈ A) ∧
      ((∀ p ∈ pivotLoop (stgR Fosc Ssrc1) [st01],
          ∃ A, isNetworkAttractor Fosc A ∧ p ∈ A) ∧
        (∀ A, isNetworkAttractor Fosc A → MtsOf Fosc A Ssrc1 →
          ∃ p ∈ pivotLoop (stgR Fosc Ssrc1) [st01], p ∈ A)) :=
  ⟨by decide, by decide, by decide,
    claim_C1_prune_contract Fosc Ssrc1 [st01] (by decide) (by decide)
      (by decide)⟩

/-- Claim C3: in the exact symbolic filter, a remaining candidate `x`
inside the node space seeds an attractor iff `fwd(x) \ bwd(x)` is empty,
and after a pivot `p` is processed its entire backward-reachable set is
subtracted from the candidate set, so no state of `bwd(p)` other than
`p` itself is ever returned as a seed (spec §4.F Phase 2; part_004 pivot
loop). -/
theorem claim_C3_exact_filter {n : Nat} (F : BNet n) (S : Space n)
    (x p : State n) (rest : List (State n)) (hx : inSpace x S) :
    ((∃ A, isAttractor (stgR F S) A ∧ x ∈ A) ↔
        fwdSet (stgR F S) x \ bwdSet (stgR F S) x = ∅) ∧
      (∀ q ∈ pivotLoop (stgR F S) (p :: rest),
        q ∈ bwdSet (stgR F S) p → q = p) := by
  refine ⟨mem_attractor_iff (stgR F S) x, fun q hq hbwd => ?_⟩
  exact pivotLoop_no_bwd (stgR F S) p rest hq hbwd

/-- The all-true one-variable state. -/
def stTT : State 1 := fun _ => true

/-- Witness for `claim_C3_exact_filter` on the one-variable negation
network. -/
theorem claim_C3_exact_filter_witness :
    inSpace stFF Sfull1 ∧
      (((∃ A, isAttractor (stgR Fneg Sfull1) A ∧ stFF ∈ A) ↔
          fwdSet (stgR Fneg Sfull1) stFF \ bwdSet (stgR Fneg Sfull1) stFF = ∅) ∧
        (∀ q ∈ pivotLoop (stgR Fneg Sfull1) (stFF :: [stTT]),
          q ∈ bwdSet (stgR Fneg Sfull1) stFF → q = stFF)) :=
  ⟨by decide, claim_C3_exact_filter Fneg Sfull1 stFF stFF [stTT] (by decide)⟩

/-- `detect_motif_avoidant_attractors` from part_007 (lines 63-85).
The bodies of `_preprocess_candidates` (Phase 1, randomized simulation)
and `_filter_candidates` (Phase 2, exact reachability) are not under
src, so they are taken as parameters `pre` and `fil`; the control flow
is embedded verbatim: empty candidates return `[]`; a singleton inside a
(pseudo) minimal trap space is returned as-is before either phase runs;
otherwise Phase 1 runs, the two early returns are re-checked, and
Phase 2 runs last. -/
def detect_motif_avoidant_attractors {σ : Type} (pre fil : List σ → List σ)
    (candidates : List σ) ( is_in_an_mts : Bool) : List σ :=
  if candidates.length = 0 then []
  else if candidates.length = 1 ∧ is_in_an_mts then candidates
  else
    let c2 := pre candidates
    if c2.length = 0 then []
    else if c2.length = 1 ∧ is_in_an_mts then c2
    else fil c2

/-- The call site in `SuccessionDiagram.py` quoted in part_007
(lines 87-93): ` is_in_an_mts = (len(stable_motifs) == 0)`, where
`stable_motifs` are the node's children (maximal trap spaces). -/
def detect_at_node {σ τ : Type} (pre fil : List σ → List σ)
    (candidates : List σ) (stable_motifs : List τ) : List σ :=
  detect_motif_avoidant_attractors pre fil candidates
    (stable_motifs.length == 0)

/-- Claim C4: the candidate pruner returns `[]` on an empty candidate
list, and returns a singleton candidate unchanged when the children list
is empty (a minimal trap space node); in the singleton case the result
is the same for every Phase 1 function `pre` and every Phase 2
reachability filter `fil`, i.e. neither is invoked (part_007,
lines 63-93; spec §4.F edge cases). -/
theorem claim_C4_edge_cases {σ τ : Type} (pre fil : List σ → List σ)
    (stable_motifs : List τ) (c : σ) :
    detect_at_node pre fil ([] : List σ) stable_motifs = [] ∧
      detect_at_node pre fil [c] ([] : List τ) = [c] := by
  constructor
  · simp [detect_at_node, detect_motif_avoidant_attractors]
  · simp [detect_at_node, detect_motif_avoidant_attractors]

/-- Claim C10: the pruner only removes candidates — whenever both phase
functions only return states from their input (which holds for the
simulation phase, which deletes candidates, and for the exact filter,
cf. `pivotLoop_subset`), every state returned by
`detect_motif_avoidant_attractors` is one of the supplied candidates
(part_006 lines 39-54; part_007 lines 63-85). -/
theorem claim_C10_no_invented_states {σ : Type} (pre fil : List σ → List σ)
    (hpre : ∀ l x, x ∈ pre l → x ∈ l) (hfil : ∀ l x, x ∈ fil l → x ∈ l)
    (candidates : List σ) (b : Bool) :
    ∀ x ∈ detect_motif_avoidant_attractors pre fil candidates b,
      x ∈ candidates := by
  intro x hx
  unfold detect_motif_avoidant_attractors at hx
  by_cases h0 : candidates.length = 0
  · rw [if_pos h0] at hx; simp at hx
  · rw [if_neg h0] at hx
    by_cases h1 : candidates.length = 1 ∧ b
    · rw [if_pos h1] at hx; exact hx
    · rw [if_neg h1] at hx
      simp only at hx
      by_cases h2 : (pre candidates).length = 0
      · rw [if_pos h2] at hx; simp at hx
      · rw [if_neg h2] at hx
        by_cases h3 : (pre candidates).length = 1 ∧ b
        · rw [if_pos h3] at hx
          exact hpre candidates x hx
        · rw [if_neg h3] at hx
          exact hpre candidates x (hfil (pre candidates) x hx)

/-- Witness for `claim_C10_no_invented_states`: the exact filter
instantiated with the pivot loop of part_004 on the one-variable
negation network, and the simulation phase instantiated with the
identity. -/
theorem claim_C10_no_invented_states_witness :
    (∀ l x, x ∈ (id : List (State 1) → List (State 1)) l → x ∈ l) ∧
      (∀ l x, x ∈ pivotLoop (stgR Fneg Sfull1) l → x ∈ l) ∧
      (∀ x ∈ detect_motif_avoidant_attractors id
          (pivotLoop (stgR Fneg Sfull1)) [stFF, stTT] false,
        x ∈ [stFF, stTT]) :=
  ⟨fun l x h => h, fun l x h => pivotLoop_subset (stgR Fneg Sfull1) l h,
    claim_C10_no_invented_states id (pivotLoop (stgR Fneg Sfull1))
      (fun l x h => h)
      (fun l x h => pivotLoop_subset (stgR Fneg Sfull1) l h)
      [stFF, stTT] false⟩

/-- Identity network on one variable, used as a witness and
counterexample input. -/
def Fid : BNet 1 := fun x _ => x 0

/-- The retained-set tie-break heuristic from part_003 (lines 13-19):
`b_i = 1` when the majority of assignments make `f_i` true, `b_i = 0`
when the majority makes it false, and otherwise `b_i` is drawn from the
global, unseeded RNG (`random.randint(0, 1)`), here the explicit
external draw `rnd`. -/
def retained_bit (cntT cntF : Nat) (rnd : Bool) : Bool :=
  if cntF < cntT then true
  else if cntT < cntF then false
  else rnd

/-- Number of states on which `f_i` evaluates to `true`. -/
def countSat {n : Nat} (F : BNet n) (i : Fin n) : Nat :=
  (Finset.univ.filter (fun x : State n => F x i = true)).card

/-- Number of states on which `f_i` evaluates to `false`. -/
def countUnsat {n : Nat} (F : BNet n) (i : Fin n) : Nat :=
  (Finset.univ.filter (fun x : State n => F x i = false)).card

/-- The retained set for the NFVS `nfvs`: the majority value per NFVS
variable, with the unseeded random tie-break (part_003 lines 13-23;
spec §4.E). -/
def retained_set {n : Nat} (F : BNet n) (nfvs : List (Fin n))
    (rnd : Fin n → Bool) : List (Fin n × Bool) :=
  nfvs.map (fun i => (i, retained_bit (countSat F i) (countUnsat F i) (rnd i)))

/-- Modelled from the spec: candidate states of §4.E — the states that
agree with the retained set on the NFVS variables and are fixed points
of every non-NFVS update function. The enumeration itself is performed
by an external solver whose code is not under src. -/
def candidate_states {n : Nat} (F : BNet n) (R : List (Fin n × Bool)) :
    Finset (State n) :=
  Finset.univ.filter (fun x : State n =>
    (∀ p ∈ R, x p.1 = p.2) ∧
      ∀ j : Fin n, (∀ p ∈ R, p.1 ≠ j) → F x j = x j)

/-- Claim C5 counterexample: on the one-variable negation network
`f_0 = ¬x_0` the signed influence graph is a single negative self-loop,
so the NFVS is forced to `{x_0}`; the majority count ties 1–1
(`f_0` is true on exactly one of the two states), so the retained set —
and with it the candidate seed states — depends on the unseeded
external random draw: two runs with identical configuration can return
different seed states. -/
theorem claim_C5_counterexample :
    retained_set Fneg [0] (fun _ => true) ≠
        retained_set Fneg [0] (fun _ => false) ∧
      candidate_states Fneg (retained_set Fneg [0] (fun _ => true)) ≠
        candidate_states Fneg (retained_set Fneg [0] (fun _ => false)) := by
  constructor
  · decide
  · decide

/-- Claim C5 (amended): the analysis is deterministic in the
configuration only up to the external randomness — whenever no majority
tie occurs in the retained-set heuristic, two runs with equal
configuration produce the same retained set and the same candidate seed
states regardless of the random draws; with a tie, the unseeded
`random.randint` tie-break (and the nondeterministic
`find_minimum_NFVS`) can make equal-configuration runs differ. -/
theorem claim_C5_amended {n : Nat} (F : BNet n) (nfvs : List (Fin n))
    (rnd1 rnd2 : Fin n → Bool)
    (hnotie : ∀ i ∈ nfvs, countSat F i ≠ countUnsat F i) :
    retained_set F nfvs rnd1 = retained_set F nfvs rnd2 ∧
      candidate_states F (retained_set F nfvs rnd1) =
        candidate_states F (retained_set F nfvs rnd2) := by
  have hbit : ∀ i ∈ nfvs,
      retained_bit (countSat F i) (countUnsat F i) (rnd1 i) =
        retained_bit (countSat F i) (countUnsat F i) (rnd2 i) := by
    intro i hi
    have hne := hnotie i hi
    unfold retained_bit
    rcases Nat.lt_trichotomy (countSat F i) (countUnsat F i) with h | h | h
    · rw [if_neg (by omega : ¬ countUnsat F i < countSat F i),
        if_neg (by omega : ¬ countUnsat F i < countSat F i),
        if_pos h, if_pos h]
    · exact absurd h hne
    · rw [if_pos h, if_pos h]
  have hset : retained_set F nfvs rnd1 = retained_set F nfvs rnd2 := by
    unfold retained_set
    apply List.map_congr_left
    intro i hi
    exact congrArg (Prod.mk i) (hbit i hi)
  exact ⟨hset, by rw [hset]⟩

/-- A two-variable network with a realizable NFVS and no majority tie:
`f_0 = ¬(x_0 ∧ x_1)` has a negative self-loop on `x_0` (so `{x_0}` is a
valid NFVS) and is true on 3 of the 4 states; `f_1 = x_1` is a source. -/
def Fnand : BNet 2 := fun x i => if i = 0 then !(x 0 && x 1) else x 1

/-- Witness for `claim_C5_amended`: on `Fnand` with NFVS `{x_0}` the
counts do not tie (3 vs 1), and the two runs agree for opposite random
draws. -/
theorem claim_C5_amended_witness :
    (∀ i ∈ [(0 : Fin 2)], countSat Fnand i ≠ countUnsat Fnand i) ∧
      (retained_set Fnand [0] (fun _ => true) =
          retained_set Fnand [0] (fun _ => false) ∧
        candidate_states Fnand (retained_set Fnand [0] (fun _ => true)) =
          candidate_states Fnand (retained_set Fnand [0] (fun _ => false))) :=
  ⟨by decide, claim_C5_amended Fnand [0] (fun _ => true) (fun _ => false)
    (by decide)⟩

/-- The error raised by the pint toolchain, as seen in the traceback of
part_006 (lines 123-133): `pypint.tools.PintProcessError`. -/
structure PintProcessError where
  detail : String
deriving DecidableEq

/-- Modelled from the spec: `_Pint_reachability` (its body is not under
src; part_006 lines 115-135 document its observed behaviour). It builds
`InMemoryModel(petri_net_as_automata_network(petri_net))`; when
`pint-export` rejects the exported net the constructor raises
`PintProcessError`, which the function does not catch. `export_ok`
abstracts whether the export is syntactically accepted. -/
def pint_reachability (export_ok : Bool) (reach : Bool) :
    Except PintProcessError Bool :=
  if export_ok then .ok reach
  else .error ⟨"pint-export -l nbjson returned non-zero exit status 2"⟩

/-- Modelled from the spec: `_filter_candidates` invokes the pint
reachability oracle once per candidate with no exception handler, so an
oracle error propagates to the caller (part_006 lines 96-135). A
candidate for which the oracle answers `true` (it can reach an earlier
object) is dropped, otherwise kept. -/
def filter_candidates_pint {σ : Type} (oracle : σ → Except PintProcessError Bool) :
    List σ → Except PintProcessError (List σ)
  | [] => .ok []
  | c :: rest => do
    let r ← oracle c
    let rest2 ← filter_candidates_pint oracle rest
    pure (if r then rest2 else c :: rest2)

/-- Claim C6 is violated by the code: on the three-variable network
`x1, x2 / x2, x1 / x3, !x3` of part_006, the pint export fails and the
resulting `PintProcessError` — a recoverable external-oracle failure —
propagates out of candidate pruning to the caller instead of marking
the node `Unknown` and continuing. -/
theorem claim_C6_error_propagates :
    filter_candidates_pint (fun _ : State 3 => pint_reachability false true)
        [fun _ => false] =
      .error ⟨"pint-export -l nbjson returned non-zero exit status 2"⟩ := by
  rfl

/-- A minimal trap space: a trap space with no proper trap sub-space
(part_005). -/
def IsMinTrapSpace {n : Nat} (F : BNet n) (S : Space n) : Prop :=
  IsTrapSpace F S ∧ ∀ T : Space n, SpaceSub T S → T ≠ S → ¬ IsTrapSpace F T

instance {n : Nat} (F : BNet n) (S : Space n) : Decidable (IsMinTrapSpace F S) := by
  unfold IsMinTrapSpace; infer_instance

/-- Modelled from the spec: the root of a succession diagram is
`perc_F(⋆^n)` (spec §3 invariants; the SD builder is not under src). -/
def sdRoot {n : Nat} (F : BNet n) : Space n :=
  percolate F (fun _ => none)

/-- The four-variable network of spec §8 scenario 1 and Source-nodes.md:
`f_A = A; f_B = B; f_C = A ∧ B; f_D = D ∨ A` with variable order
`A, B, C, D`. -/
def F8 : BNet 4 := fun x i =>
  if i = 0 then x 0
  else if i = 1 then x 1
  else if i = 2 then x 0 && x 1
  else x 3 || x 0

/-- A space over four variables given by its four components. -/
def fixSpace (a b c d : Option Bool) : Space 4 := fun i =>
  if i = 0 then a else if i = 1 then b else if i = 2 then c else d

/-- The source-combination space `{A = a, B = b}`. -/
def srcSpace (a b : Bool) : Space 4 :=
  fixSpace (some a) (some b) none none

/-- The full four-variable space `⋆^4`. -/
def full4 : Space 4 := fun _ => none

/-- Modelled from the spec: the succession diagram of `F8` built with
block decomposition — the root `perc(⋆^4)` plus the four percolated
source-combination nodes (spec §8 scenario 1; Source-nodes.md; the SD
builder itself is not under src). -/
def sd_block_nodes : List (Space 4) :=
  [full4,
   fixSpace (some false) (some false) (some false) none,
   fixSpace (some false) (some true) (some false) none,
   fixSpace (some true) (some false) (some false) (some true),
   fixSpace (some true) (some true) (some true) (some true)]

/-- The six minimal trap spaces of `F8` (all fixed points): for `A = 0`
the source variable `D` splits each `B` choice in two, for `A = 1` the
percolation fixes `D = 1`. -/
def mtsList : List (Space 4) :=
  [fixSpace (some false) (some false) (some false) (some false),
   fixSpace (some false) (some false) (some false) (some true),
   fixSpace (some false) (some true) (some false) (some false),
   fixSpace (some false) (some true) (some false) (some true),
   fixSpace (some true) (some false) (some false) (some true),
   fixSpace (some true) (some true) (some true) (some true)]

/-- Claim C8: for `f_A = A; f_B = B; f_C = A ∧ B; f_D = D ∨ A` the four
source-combination roots percolate to the listed spaces (all trap
spaces), the root of the SD is `perc(⋆^4) = ⋆^4`, the block-decomposed
SD has exactly 5 nodes, the minimal trap spaces are exactly the six
listed fixed points, and each minimal trap space extends exactly one
source combination (spec §8 scenario 1; Source-nodes.md). -/
theorem claim_C8_source_combination_example :
    sdRoot F8 = full4 ∧
      (percolate F8 (srcSpace false false) =
          fixSpace (some false) (some false) (some false) none ∧
        percolate F8 (srcSpace false true) =
          fixSpace (some false) (some true) (some false) none ∧
        percolate F8 (srcSpace true false) =
          fixSpace (some true) (some false) (some false) (some true) ∧
        percolate F8 (srcSpace true true) =
          fixSpace (some true) (some true) (some true) (some true)) ∧
      (∀ a b : Bool, IsTrapSpace F8 (percolate F8 (srcSpace a b))) ∧
      sd_block_nodes.length = 5 ∧
      sd_block_nodes =
        sdRoot F8 :: [percolate F8 (srcSpace false false),
          percolate F8 (srcSpace false true),
          percolate F8 (srcSpace true false),
          percolate F8 (srcSpace true true)] ∧
      (∀ S : Space 4, IsMinTrapSpace F8 S ↔ S ∈ mtsList) ∧
      (∀ M ∈ mtsList, ∃ a b : Bool, SpaceSub M (srcSpace a b)) := by
  refine ⟨?_, ⟨?_, ?_, ?_, ?_⟩, ?_, ?_, ?_, ?_, ?_⟩ <;> decide

/-- The successor lists of the six-node succession diagram of the
28-variable DNA-damage network, as recorded in example/tutorial.ipynb:
`0 → [1]`, `1 → [2, 3]`, `2 → [4]`, `4 → [5]`; nodes 3 and 5 have no
successors (node 3 is unexpanded, node 5 is the minimal trap space). -/
def tutSuccTable : List (List (Fin 6)) := [[1], [2, 3], [4], [], [5], []]

/-- Successors of an SD node of the recorded diagram. -/
def tutSucc (v : Fin 6) : List (Fin 6) := tutSuccTable.getD v.val []

/-- The node ids of the recorded diagram. -/
def tutNodes : List (Fin 6) := [0, 1, 2, 3, 4, 5]

/-- Modelled from the spec: the depth reported by `summary()` (its code
is not under src). The notebook pins the convention — the unexpanded
single-node diagram prints `depth 0` — so depth is the length in edges
of the longest root-to-node path, computed here with fuel. -/
def longestFrom (succ : Fin 6 → List (Fin 6)) : Nat → Fin 6 → Nat
  | 0, _ => 0
  | fuel + 1, v =>
    (succ v).foldr (fun c acc => max acc (longestFrom succ fuel c + 1)) 0

/-- The depth of the recorded diagram: the longest path from the root
node 0. -/
def tutDepth : Nat := longestFrom tutSucc 6 0

/-- The index of variable `v_CHKREC` in the recorded state order
(alphabetical: `v_ADD, v_ATM, v_ATR, v_BRCA1, v_CHK1, v_CHK2,
v_CHKREC, …`). -/
def chkrecIdx : Fin 28 := 6

/-- The recorded attractor seed state of node 5: every variable 0. -/
def tutSeed : State 28 := fun _ => false

/-- The recorded attractor seeds per node: node 5 carries the single
seed, all other nodes have none. -/
def tutSeeds (v : Fin 6) : List (State 28) :=
  if v = 5 then [tutSeed] else []

/-- The recorded sub-space of node 5: all 27 variables other than
`v_CHKREC` fixed to 0. -/
def node5Space : Space 28 := fun i =>
  if i = chkrecIdx then none else some false

/-- Claim C9 counterexample: the depth of the succession diagram
recorded in the tutorial notebook is 4, not 5, under the notebook's own
convention (a single-node diagram has depth 0): the longest path is
`0 → 1 → 2 → 4 → 5`, with node 3 at depth 2. -/
theorem claim_C9_counterexample : tutDepth ≠ 5 ∧ tutDepth = 4 := by
  decide

/-- Claim C9 (amended): on the DNA-damage network the recorded summary
has exactly 6 nodes and depth 4, exactly one attractor and it belongs to
node 5, the recorded seed lies in node 5's space, and — since node 5
fixes every variable except `v_CHKREC` — any two distinct states of that
space (in particular the two states of the recorded 2-element attractor
set) differ exactly in `v_CHKREC`. -/
theorem claim_C9_amended :
    tutNodes.length = 6 ∧ tutDepth = 4 ∧
      (∀ v : Fin 6, (tutSeeds v).length = if v = (5 : Fin 6) then 1 else 0) ∧
      inSpace tutSeed node5Space ∧
      (∀ x y : State 28, inSpace x node5Space → inSpace y node5Space →
        x ≠ y →
          (x chkrecIdx ≠ y chkrecIdx ∧
            ∀ i : Fin 28, i ≠ chkrecIdx → x i = y i)) := by
  refine ⟨by decide, by decide, by decide, by decide, ?_⟩
  intro x y hx hy hxy
  have hcoord : ∀ i : Fin 28, i ≠ chkrecIdx → x i = y i := by
    intro i hi
    have hnode : node5Space i = some false := by
      unfold node5Space; rw [if_neg hi]
    rw [hx i false hnode, hy i false hnode]
  refine ⟨?_, hcoord⟩
  intro h6
  apply hxy
  funext i
  by_cases hi : i = chkrecIdx
  · rw [hi]; exact h6
  · exact hcoord i hi

/-- The fully fixed space `{x_0 = 1}`, a trap space of `Fid`. -/
def Sid : Space 1 := fun _ => some true

/-- Witness for `claim_C7_amended` at the concrete trap space `Sid` of
the network `Fid`. -/
theorem claim_C7_amended_witness :
    IsTrapSpace Fid Sid ∧ IsTrapSpace Fid (percolate Fid Sid) ∧
      percStep Fid (percolate Fid Sid) = percolate Fid Sid :=
  ⟨by decide, (claim_C7_amended Fid Sid).2 (by decide),
    (claim_C7_amended Fid Sid).1⟩

end Balm
